import Mathlib

/-!
Verification of the Kernel Retention and Cleanup Decision Engine of V.K.M
(`src/vkm-v2.py`).  The definitions below are a shallow embedding of the
Python source: `KernelCleanupPolicy` (lines 47-54), `KernelManager`'s
catalog helpers (`_get_fallback_kernel`, `list_installed_kernels`,
`get_kernel_info`, lines 173-252), the retention engine
`identify_kernels_to_remove` (lines 264-315) and the executor
`remove_kernels` (lines 317-378).  Machine state that the Python reads
from the system (dpkg output, `uname -r`, install timestamps, the
outcomes of `apt remove` and `update-grub`) is passed in explicitly.
-/

namespace VKM

/-- `KernelCleanupPolicy` dataclass (vkm-v2.py lines 47-54).  The counts
are modelled as `Nat`: a well-formed policy has non-negative counts
(spec section 3), and the code compares them only with `<`, `>=`, `min`
and `> 0`. -/
structure KernelCleanupPolicy where
  keep_latest : Nat
  keep_days : Nat
  dry_run : Bool
  exclude_current : Bool
  exclude_fallback : Bool
  min_kernels : Nat
deriving Repr, DecidableEq

/-- The system state the `KernelManager` reads: `installed` is the value
returned by `list_installed_kernels` (deduplicated, sorted newest-first),
`current` is the `uname -r` output (empty string when that call fails,
line 171), and `installDate` gives the parsed `Install-Time` of a
version: `none` when the field is missing ( `install_date == ""` ),
is the literal `"Unknown"`, or does not parse with `strptime` — all
three cases make the recency rule skip the record (lines 292-298). -/
structure KernelState where
  installed : List String
  current : String
  installDate : String → Option Int

/-- One entry of `kernels_info` as built by `get_kernel_info`
(lines 211-252): the dictionary fields the engine reads. -/
structure KernelInfo where
  version : String
  is_current : Bool
  install_date : Option Int
  is_fallback : Bool
deriving Repr, DecidableEq

/-- `_get_fallback_kernel` (lines 173-178): the second newest installed
kernel when more than one is listed, otherwise the current kernel. -/
def fallback_kernel (st : KernelState) : String :=
  match st.installed with
  | _ :: second :: _ => second
  | _ => st.current

/-- `get_kernel_info` (lines 211-252): `is_current` compares the version
with the running kernel, `is_fallback` with the fallback kernel. -/
def get_kernel_info (st : KernelState) (v : String) : KernelInfo :=
  { version := v
    is_current := v == st.current
    install_date := st.installDate v
    is_fallback := v == fallback_kernel st }

/-- `kernels_info = [self.get_kernel_info(k) for k in all_kernels]`
(line 267). -/
def catalogInfos (st : KernelState) : List KernelInfo :=
  st.installed.map (get_kernel_info st)

/-- The `if version not in keep: keep.append(version)` loop shape used by
the latest-N rule (lines 284-286) and by the dedup loop of
`list_installed_kernels` (lines 195-198). -/
def addMissing (vs : List String) (keep : List String) : List String :=
  vs.foldl (fun acc v => if v ∈ acc then acc else acc ++ [v]) keep

/-- Step 2 of the engine (lines 272-276): when `exclude_current`, the
version of the first record marked current is appended to the empty
keep list. -/
def keep_current (st : KernelState) (p : KernelCleanupPolicy) :
    List String :=
  if p.exclude_current then
    match (catalogInfos st).find? (fun k => k.is_current) with
    | some current => [current.version]
    | none => []
  else []

/-- Step 3 of the engine (lines 279-280): the fallback version is
appended — unguarded, no membership check — when `exclude_fallback` and
the fallback string is non-empty (Python truthiness). -/
def keep_after_exclusions (st : KernelState) (p : KernelCleanupPolicy) :
    List String :=
  if p.exclude_fallback && (fallback_kernel st != "") then
    keep_current st p ++ [fallback_kernel st]
  else keep_current st p

/-- The versions visited by the latest-N loop: `range(min(latest_to_keep,
len(kernels_info)))` with `latest_to_keep = min(policy.keep_latest,
len(kernels_info))` (lines 283-284). -/
def latestVersions (st : KernelState) (p : KernelCleanupPolicy) :
    List String :=
  let infos := catalogInfos st
  ((infos.take (min (min p.keep_latest infos.length) infos.length)).map
    (fun k => k.version))

/-- Step 4 of the engine (lines 282-286). -/
def keep_after_latest (st : KernelState) (p : KernelCleanupPolicy) :
    List String :=
  addMissing (latestVersions st p) (keep_after_exclusions st p)

/-- The loop body of the recency rule (lines 291-298): a record with a
parsed install date strictly newer than the cutoff is appended when not
already kept; records whose date is missing, `"Unknown"`, or unparseable
are skipped by the `try`/`except`. -/
def daysFold (cutoff : Int) (infos : List KernelInfo)
    (keep : List String) : List String :=
  infos.foldl (fun acc k =>
    match k.install_date with
    | some t => if t > cutoff ∧ k.version ∉ acc then acc ++ [k.version]
                else acc
    | none => acc) keep

/-- Step 5 of the engine (lines 288-298); time is measured in seconds, a
day is 86400 seconds (`timedelta(days=keep_days)`). -/
def keep_after_days (st : KernelState) (p : KernelCleanupPolicy)
    (now : Int) : List String :=
  if p.keep_days > 0 then
    daysFold (now - (p.keep_days : Int) * 86400) (catalogInfos st)
      (keep_after_latest st p)
  else keep_after_latest st p

/-- The `min_kernels` top-up loop (lines 302-307): walk the catalog in
order, stop as soon as the keep list (duplicates counted) reaches
`min_kernels`, append versions not yet kept. -/
def topUp (infos : List KernelInfo) (minK : Nat) (keep : List String) :
    List String :=
  match infos with
  | [] => keep
  | k :: rest =>
    if keep.length ≥ minK then keep
    else if k.version ∈ keep then topUp rest minK keep
    else topUp rest minK (keep ++ [k.version])

/-- The complete `keep_kernels` list at line 309, after the
`if len(keep_kernels) < policy.min_kernels` top-up (lines 300-307). -/
def keepList (st : KernelState) (p : KernelCleanupPolicy) (now : Int) :
    List String :=
  if (keep_after_days st p now).length < p.min_kernels then
    topUp (catalogInfos st) p.min_kernels (keep_after_days st p now)
  else keep_after_days st p now

/-- `identify_kernels_to_remove` (lines 264-315): the records whose
version is not in the keep list, in catalog order (lines 309-313). -/
def identify_kernels_to_remove (st : KernelState)
    (p : KernelCleanupPolicy) (now : Int) : List KernelInfo :=
  (catalogInfos st).filter (fun k => k.version ∉ keepList st p now)

/-- The catalog records protected by the keep list (the complement of
the remove list inside the catalog). -/
def keptRecords (st : KernelState) (p : KernelCleanupPolicy)
    (now : Int) : List KernelInfo :=
  (catalogInfos st).filter (fun k => k.version ∈ keepList st p now)

/-! ### The version sort of `list_installed_kernels` (lines 180-205) -/

/-- The integer value of a run of digit characters
(`int(part)` for a match of `\d+`). -/
def natOfDigits (ds : List Char) : Nat :=
  ds.foldl (fun n c => n * 10 + (c.toNat - 48)) 0

/-- The maximal runs of digit characters of a string, accumulator-style
(the matches of `re.findall(r..d+.., x)`). -/
def digitRuns : List Char → List Char → List (List Char)
  | [], acc => if acc.isEmpty then [] else [acc.reverse]
  | c :: cs, acc =>
    if c.isDigit then digitRuns cs (c :: acc)
    else if acc.isEmpty then digitRuns cs []
    else acc.reverse :: digitRuns cs []

/-- The sort key of line 204:
`[int(part) for part in re.findall(r..d+.., x)]`. -/
def numericKey (s : String) : List Nat :=
  (digitRuns s.data []).map natOfDigits

/-- Python comparison of two `list[int]` values: lexicographic,
component-wise, a strict prefix is smaller. -/
def pyListLt : List Nat → List Nat → Bool
  | _, [] => false
  | [], _ :: _ => true
  | a :: as, b :: bs =>
    if a < b then true else if b < a then false else pyListLt as bs

/-- The descending-order relation produced by `reverse=True`: `a` may
precede `b` when the key of `a` is not strictly smaller than the key of
`b`. -/
def keyGe (a b : String) : Prop :=
  pyListLt (numericKey a) (numericKey b) = false

/-- Stable insertion for a descending sort: `x` is placed before the
first element whose key is strictly smaller, hence after every earlier
element with an equal or larger key. -/
def insertDesc (x : String) : List String → List String
  | [] => [x]
  | y :: ys =>
    if pyListLt (numericKey y) (numericKey x) then x :: y :: ys
    else y :: insertDesc x ys

/-- `kernels.sort(key=..., reverse=True)` (line 204): Python sorting is
stable, and with `reverse=True` it produces the descending order in
which elements with equal keys retain their original relative order —
the unique order the stable descending insertion sort also produces. -/
def sortDesc (l : List String) : List String :=
  l.foldl (fun acc v => insertDesc v acc) []

/-- `list_installed_kernels` (lines 180-205) modelled from the parsed
package versions in dpkg listing order: deduplicate preserving first
occurrence (lines 195-198), then sort newest-first by numeric key
(line 204). -/
def list_installed_kernels (raw : List String) : List String :=
  sortDesc (addMissing raw [])

/-! ### The executor `remove_kernels` (lines 317-378) -/

/-- The log levels of `VKMLogger`. -/
inductive LogLevel
  | debug
  | info
  | warning
  | error
deriving DecidableEq, Repr

/-- One logger call: level and message. -/
structure LogEntry where
  level : LogLevel
  msg : String
deriving DecidableEq, Repr

/-- The observable outcome of `remove_kernels`: its return value, the
log it emitted, and whether `update-grub` was invoked. -/
structure RemoveResult where
  ok : Bool
  log : List LogEntry
  grubInvoked : Bool
deriving DecidableEq, Repr

/-- `remove_kernels` (lines 317-378).  The outcomes of the two external
commands are inputs: `removalOk` is `apt remove` returning zero,
`removalStderr` its diagnostic output, `grubOk` whether `update-grub`
succeeds.  When `update-grub` fails, `subprocess.run(check=True)`
raises and the generic `except` at line 376 logs
`Error during kernel removal: ...` at error level and returns `False`;
when `apt remove` fails, line 372 logs the stderr at error level and
`update-grub` is never run. -/
def remove_kernels (kernels : List String) (dry_run : Bool)
    (removalOk : Bool) (removalStderr : String) (grubOk : Bool) :
    RemoveResult :=
  if kernels.isEmpty then
    ⟨true, [⟨LogLevel.info, "No kernels to remove"⟩], false⟩
  else
    let header : LogEntry :=
      ⟨LogLevel.info,
        (if dry_run then "[DRY RUN] " else "") ++ "Removing " ++
          toString kernels.length ++ " kernels: " ++
          String.intercalate ", " kernels⟩
    if dry_run then
      ⟨true, [header,
        ⟨LogLevel.info, "Dry run - no packages will be removed"⟩], false⟩
    else
      let dbg : LogEntry :=
        ⟨LogLevel.debug,
          "Executing: " ++ String.intercalate " "
            (["apt", "remove", "-y"] ++
              kernels.map (fun k => "linux-image-" ++ k))⟩
      if removalOk then
        let pre : List LogEntry :=
          [header, dbg,
            ⟨LogLevel.info, "Kernel removal completed successfully"⟩,
            ⟨LogLevel.info, "Updating GRUB configuration..."⟩]
        if grubOk then
          ⟨true, pre ++ [⟨LogLevel.info, "GRUB configuration updated"⟩],
            true⟩
        else
          ⟨false, pre ++ [⟨LogLevel.error,
            "Error during kernel removal: Command update-grub returned non-zero exit status"⟩],
            true⟩
      else
        ⟨false, [header, dbg,
          ⟨LogLevel.error, "Kernel removal failed: " ++ removalStderr⟩],
          false⟩

/-! ### Basic lemmas about the three appending loops -/

theorem mem_addMissing {v : String} (vs acc : List String) :
    v ∈ addMissing vs acc ↔ v ∈ acc ∨ v ∈ vs := by
  induction vs generalizing acc with
  | nil => simp [addMissing]
  | cons w ws ih =>
    simp only [addMissing, List.foldl_cons] at *
    by_cases hw : w ∈ acc
    · simp [hw, ih]
      constructor
      · rintro (h | h)
        · exact Or.inl h
        · exact Or.inr (Or.inr h)
      · rintro (h | h | h)
        · exact Or.inl h
        · exact Or.inl (h ▸ hw)
        · exact Or.inr h
    · simp [hw, ih, List.mem_append, or_assoc]

theorem subset_addMissing (vs acc : List String) :
    acc ⊆ addMissing vs acc := fun _ hv =>
  (mem_addMissing vs acc).2 (Or.inl hv)

theorem count_addMissing (v : String) (vs acc : List String) :
    (addMissing vs acc).count v =
      acc.count v + (if v ∈ acc ∨ v ∉ vs then 0 else 1) := by
  induction vs generalizing acc with
  | nil => simp [addMissing]
  | cons w ws ih =>
    simp only [addMissing, List.foldl_cons] at *
    by_cases hw : w ∈ acc
    · rw [if_pos hw, ih]
      by_cases hv : v ∈ acc
      · simp [hv]
      · simp only [hv, false_or]
        by_cases hvw : v = w
        · simp [hvw ▸ hw] at hv
        · simp [List.mem_cons, hvw]
    · rw [if_neg hw, ih]
      by_cases hvw : v = w
      · subst hvw
        simp [hw, List.count_append, List.mem_append]
      · have hwv : ¬w = v := fun h => hvw h.symm
        have hmem : v ∈ acc ++ [w] ↔ v ∈ acc := by
          simp [List.mem_append, hvw]
        rw [List.count_append]
        simp only [List.count_singleton, if_neg hvw, hmem]
        by_cases hv : v ∈ acc
        · simp [hv, hwv]
        · simp [hv, List.mem_cons, hvw, hwv]

theorem nodup_addMissing (vs : List String) {acc : List String}
    (h : acc.Nodup) : (addMissing vs acc).Nodup := by
  induction vs generalizing acc with
  | nil => exact h
  | cons w ws ih =>
    simp only [addMissing, List.foldl_cons]
    by_cases hw : w ∈ acc
    · rw [if_pos hw]; exact ih h
    · rw [if_neg hw]
      exact ih (by simp [List.nodup_append, h, hw])

theorem addMissing_append (xs ys acc : List String) :
    addMissing (xs ++ ys) acc = addMissing ys (addMissing xs acc) := by
  simp [addMissing, List.foldl_append]

theorem mem_daysFold {v : String} (c : Int) (infos : List KernelInfo)
    (acc : List String) :
    v ∈ daysFold c infos acc ↔
      v ∈ acc ∨ ∃ k ∈ infos, k.version = v ∧
        ∃ t, k.install_date = some t ∧ t > c := by
  induction infos generalizing acc with
  | nil => simp [daysFold]
  | cons k ks ih =>
    simp only [daysFold, List.foldl_cons] at *
    rcases hd : k.install_date with _ | t <;> simp only [hd]
    · rw [ih]
      constructor
      · rintro (h | h)
        · exact Or.inl h
        · exact Or.inr (by
            obtain ⟨j, hj, hrest⟩ := h
            exact ⟨j, List.mem_cons_of_mem _ hj, hrest⟩)
      · rintro (h | ⟨j, hj, hv, t, hjd, ht⟩)
        · exact Or.inl h
        · rcases List.mem_cons.1 hj with rfl | hj
          · simp [hd] at hjd
          · exact Or.inr ⟨j, hj, hv, t, hjd, ht⟩
    · by_cases hc : t > c ∧ k.version ∉ acc
      · rw [if_pos hc, ih]
        constructor
        · rintro (h | h)
          · rcases List.mem_append.1 h with h | h
            · exact Or.inl h
            · refine Or.inr ⟨k, List.mem_cons_self _ _, ?_, t, hd, hc.1⟩
              exact (List.mem_singleton.1 h).symm
          · obtain ⟨j, hj, hrest⟩ := h
            exact Or.inr ⟨j, List.mem_cons_of_mem _ hj, hrest⟩
        · rintro (h | ⟨j, hj, hv, u, hjd, hu⟩)
          · exact Or.inl (List.mem_append.2 (Or.inl h))
          · rcases List.mem_cons.1 hj with rfl | hj
            · exact Or.inl (List.mem_append.2 (Or.inr (by simp [hv])))
            · exact Or.inr ⟨j, hj, hv, u, hjd, hu⟩
      · rw [if_neg hc, ih]
        constructor
        · rintro (h | h)
          · exact Or.inl h
          · obtain ⟨j, hj, hrest⟩ := h
            exact Or.inr ⟨j, List.mem_cons_of_mem _ hj, hrest⟩
        · rintro (h | ⟨j, hj, hv, u, hjd, hu⟩)
          · exact Or.inl h
          · rcases List.mem_cons.1 hj with rfl | hj
            · rw [hd] at hjd
              obtain rfl : t = u := by simpa using hjd
              rcases not_and_or.1 hc with hc | hc
              · exact absurd hu hc
              · exact Or.inl (hv ▸ not_not.1 hc)
            · exact Or.inr ⟨j, hj, hv, u, hjd, hu⟩

theorem subset_daysFold (c : Int) (infos : List KernelInfo)
    (acc : List String) : acc ⊆ daysFold c infos acc := fun _ hv =>
  (mem_daysFold c infos acc).2 (Or.inl hv)

theorem count_daysFold_of_mem {v : String} (c : Int)
    (infos : List KernelInfo) (acc : List String) (hv : v ∈ acc) :
    (daysFold c infos acc).count v = acc.count v := by
  induction infos generalizing acc with
  | nil => rfl
  | cons k ks ih =>
    simp only [daysFold, List.foldl_cons] at *
    rcases hd : k.install_date with _ | t <;> simp only [hd]
    · exact ih _ hv
    · by_cases hc : t > c ∧ k.version ∉ acc
      · rw [if_pos hc]
        have hz : List.count v [k.version] = 0 := by
          rw [List.count_eq_zero]
          simp only [List.mem_singleton]
          exact fun h => hc.2 (h ▸ hv)
        rw [ih _ (List.mem_append.2 (Or.inl hv)), List.count_append, hz,
          Nat.add_zero]
      · rw [if_neg hc]; exact ih _ hv

theorem nodup_daysFold (c : Int) (infos : List KernelInfo)
    {acc : List String} (h : acc.Nodup) : (daysFold c infos acc).Nodup := by
  induction infos generalizing acc with
  | nil => exact h
  | cons k ks ih =>
    simp only [daysFold, List.foldl_cons]
    rcases hd : k.install_date with _ | t <;> simp only [hd]
    · exact ih h
    · by_cases hc : t > c ∧ k.version ∉ acc
      · rw [if_pos hc]
        exact ih (by simp [List.nodup_append, h, hc.2])
      · rw [if_neg hc]; exact ih h

theorem subset_topUp (infos : List KernelInfo) (m : Nat)
    (acc : List String) : acc ⊆ topUp infos m acc := by
  induction infos generalizing acc with
  | nil => exact fun _ h => h
  | cons k ks ih =>
    simp only [topUp]
    by_cases hlen : acc.length ≥ m
    · rw [if_pos hlen]; exact fun _ h => h
    · rw [if_neg hlen]
      by_cases hk : k.version ∈ acc
      · rw [if_pos hk]; exact ih acc
      · rw [if_neg hk]
        exact fun v hv => ih _ (List.mem_append.2 (Or.inl hv))

theorem topUp_of_length_ge (infos : List KernelInfo) {m : Nat}
    {acc : List String} (h : acc.length ≥ m) : topUp infos m acc = acc := by
  cases infos with
  | nil => rfl
  | cons k ks => simp [topUp, if_pos h]

theorem mem_topUp {v : String} (infos : List KernelInfo) (m : Nat)
    (acc : List String) :
    v ∈ topUp infos m acc ↔ v ∈ acc ∨
      (v ∈ topUp infos m acc ∧ v ∈ (infos.map (fun k => k.version))) := by
  constructor
  · intro hv
    by_cases ha : v ∈ acc
    · exact Or.inl ha
    · refine Or.inr ⟨hv, ?_⟩
      induction infos generalizing acc with
      | nil => exact absurd hv ha
      | cons k ks ih =>
        simp only [topUp] at hv
        by_cases hlen : acc.length ≥ m
        · rw [if_pos hlen] at hv; exact absurd hv ha
        · rw [if_neg hlen] at hv
          by_cases hk : k.version ∈ acc
          · rw [if_pos hk] at hv
            exact List.mem_cons_of_mem _ (ih acc hv ha)
          · rw [if_neg hk] at hv
            by_cases hvk : v = k.version
            · simp [hvk]
            · refine List.mem_cons_of_mem _ (ih (acc ++ [k.version]) hv ?_)
              simp [List.mem_append, ha, hvk]
  · rintro (h | ⟨h, _⟩)
    · exact subset_topUp infos m acc h
    · exact h

theorem count_topUp_of_mem {v : String} (infos : List KernelInfo)
    (m : Nat) (acc : List String) (hv : v ∈ acc) :
    (topUp infos m acc).count v = acc.count v := by
  induction infos generalizing acc with
  | nil => rfl
  | cons k ks ih =>
    simp only [topUp]
    by_cases hlen : acc.length ≥ m
    · rw [if_pos hlen]
    · rw [if_neg hlen]
      by_cases hk : k.version ∈ acc
      · rw [if_pos hk]; exact ih _ hv
      · rw [if_neg hk]
        have hz : List.count v [k.version] = 0 := by
          rw [List.count_eq_zero]
          simp only [List.mem_singleton]
          exact fun h => hk (h ▸ hv)
        rw [ih _ (List.mem_append.2 (Or.inl hv)), List.count_append, hz,
          Nat.add_zero]

theorem nodup_topUp (infos : List KernelInfo) (m : Nat)
    {acc : List String} (h : acc.Nodup) : (topUp infos m acc).Nodup := by
  induction infos generalizing acc with
  | nil => exact h
  | cons k ks ih =>
    simp only [topUp]
    by_cases hlen : acc.length ≥ m
    · rw [if_pos hlen]; exact h
    · rw [if_neg hlen]
      by_cases hk : k.version ∈ acc
      · rw [if_pos hk]; exact ih h
      · rw [if_neg hk]
        exact ih (by simp [List.nodup_append, h, hk])

/-! ### Stage composition lemmas -/

theorem latestVersions_eq (st : KernelState) (p : KernelCleanupPolicy) :
    latestVersions st p =
      ((catalogInfos st).take p.keep_latest).map (fun k => k.version) := by
  simp only [latestVersions]
  rcases Nat.le_total p.keep_latest (catalogInfos st).length with h | h
  · rw [min_assoc, min_self, Nat.min_eq_left h]
  · rw [min_assoc, min_self, Nat.min_eq_right h, List.take_length,
      List.take_of_length_le h]

theorem keep_current_subset (st : KernelState) (p : KernelCleanupPolicy) :
    keep_current st p ⊆ keep_after_exclusions st p := by
  rw [keep_after_exclusions]
  split
  · exact fun v hv => List.mem_append.2 (Or.inl hv)
  · exact fun _ hv => hv

theorem keep_after_exclusions_subset_latest (st : KernelState)
    (p : KernelCleanupPolicy) :
    keep_after_exclusions st p ⊆ keep_after_latest st p :=
  subset_addMissing _ _

theorem keep_after_latest_subset_days (st : KernelState)
    (p : KernelCleanupPolicy) (now : Int) :
    keep_after_latest st p ⊆ keep_after_days st p now := by
  rw [keep_after_days]
  split
  · exact subset_daysFold _ _ _
  · exact fun _ hv => hv

theorem keep_after_days_subset_keepList (st : KernelState)
    (p : KernelCleanupPolicy) (now : Int) :
    keep_after_days st p now ⊆ keepList st p now := by
  rw [keepList]
  split
  · exact subset_topUp _ _ _
  · exact fun _ hv => hv

theorem keep_after_exclusions_subset_keepList (st : KernelState)
    (p : KernelCleanupPolicy) (now : Int) :
    keep_after_exclusions st p ⊆ keepList st p now := fun _ hv =>
  keep_after_days_subset_keepList st p now
    (keep_after_latest_subset_days st p now
      (keep_after_exclusions_subset_latest st p hv))

/-! ### Where keep-list elements come from -/

theorem mem_keep_current {v : String} (st : KernelState)
    (p : KernelCleanupPolicy) (h : v ∈ keep_current st p) :
    ∃ k ∈ catalogInfos st, k.version = v := by
  rw [keep_current] at h
  by_cases hec : p.exclude_current = true
  · rw [if_pos hec] at h
    rcases hfind : (catalogInfos st).find? (fun j => j.is_current)
      with _ | c <;> rw [hfind] at h
    · cases h
    · exact ⟨c, List.mem_of_find?_eq_some hfind,
        (List.mem_singleton.1 h).symm⟩
  · rw [if_neg hec] at h
    cases h

theorem mem_keep_after_exclusions {v : String} (st : KernelState)
    (p : KernelCleanupPolicy) (h : v ∈ keep_after_exclusions st p) :
    (∃ k ∈ catalogInfos st, k.version = v) ∨
      (v = fallback_kernel st ∧ p.exclude_fallback = true ∧
        fallback_kernel st ≠ "") := by
  rw [keep_after_exclusions] at h
  by_cases hc : (p.exclude_fallback && (fallback_kernel st != "")) = true
  · rw [if_pos hc] at h
    rcases List.mem_append.1 h with h | h
    · exact Or.inl (mem_keep_current st p h)
    · refine Or.inr ⟨List.mem_singleton.1 h, ?_, ?_⟩
      · exact (Bool.and_eq_true _ _ ▸ hc).1
      · have := (Bool.and_eq_true _ _ ▸ hc).2
        simpa using this
  · rw [if_neg hc] at h
    exact Or.inl (mem_keep_current st p h)

theorem version_mem_installed {v : String} (st : KernelState)
    (h : ∃ k ∈ catalogInfos st, k.version = v) : v ∈ st.installed := by
  obtain ⟨k, hk, hv⟩ := h
  obtain ⟨u, hu, rfl⟩ := List.mem_map.1 hk
  have h2 : u = v := hv
  exact h2 ▸ hu

theorem mem_keepList_cases {v : String} (st : KernelState)
    (p : KernelCleanupPolicy) (now : Int) (h : v ∈ keepList st p now) :
    v ∈ st.installed ∨
      (v = fallback_kernel st ∧ p.exclude_fallback = true ∧
        fallback_kernel st ≠ "") := by
  rw [keepList] at h
  have hdays : v ∈ keep_after_days st p now ∨ v ∈ st.installed := by
    split at h
    · rcases (mem_topUp _ _ _).1 h with h | ⟨_, hmap⟩
      · exact Or.inl h
      · obtain ⟨k, hk, hv⟩ := List.mem_map.1 hmap
        exact Or.inr (version_mem_installed st ⟨k, hk, hv⟩)
    · exact Or.inl h
  rcases hdays with h | h
  · rw [keep_after_days] at h
    have hlat : v ∈ keep_after_latest st p ∨ v ∈ st.installed := by
      split at h
      · rcases (mem_daysFold _ _ _).1 h with h | ⟨k, hk, hv, _⟩
        · exact Or.inl h
        · exact Or.inr (version_mem_installed st ⟨k, hk, hv⟩)
      · exact Or.inl h
    rcases hlat with h | h
    · rw [keep_after_latest] at h
      rcases (mem_addMissing _ _).1 h with h | h
      · rcases mem_keep_after_exclusions st p h with h | h
        · exact Or.inl (version_mem_installed st h)
        · exact Or.inr h
      · rw [latestVersions_eq] at h
        obtain ⟨k, hk, hv⟩ := List.mem_map.1 h
        exact Or.inl
          (version_mem_installed st ⟨k, List.take_subset _ _ hk, hv⟩)
    · exact Or.inl h
  · exact Or.inl h

/-! ### C1: keep/remove partition the catalog -/

/-- C1.  For every catalog and policy, the remove list returned by
`identify_kernels_to_remove` contains exactly the catalog records whose
version is not in the keep list, and every catalog record is in exactly
one of the kept records and the remove list. -/
theorem remove_keep_partition (st : KernelState) (p : KernelCleanupPolicy)
    (now : Int) (k : KernelInfo) (hk : k ∈ catalogInfos st) :
    (k ∈ identify_kernels_to_remove st p now ↔
      k.version ∉ keepList st p now) ∧
    (k ∈ keptRecords st p now ↔ k ∉ identify_kernels_to_remove st p now) := by
  constructor
  · rw [identify_kernels_to_remove, List.mem_filter]
    simp [hk]
  · rw [keptRecords, identify_kernels_to_remove, List.mem_filter,
      List.mem_filter]
    simp [hk]

/-- Witness for C1 at a concrete one-kernel catalog. -/
theorem remove_keep_partition_witness :
    (get_kernel_info ⟨["6.1.0"], "6.1.0", fun _ => none⟩ "6.1.0" ∈
      catalogInfos ⟨["6.1.0"], "6.1.0", fun _ => none⟩) ∧
    ((get_kernel_info ⟨["6.1.0"], "6.1.0", fun _ => none⟩ "6.1.0" ∈
        identify_kernels_to_remove ⟨["6.1.0"], "6.1.0", fun _ => none⟩
          ⟨2, 0, false, true, true, 1⟩ 0 ↔
      (get_kernel_info ⟨["6.1.0"], "6.1.0", fun _ => none⟩ "6.1.0").version ∉
        keepList ⟨["6.1.0"], "6.1.0", fun _ => none⟩
          ⟨2, 0, false, true, true, 1⟩ 0) ∧
    (get_kernel_info ⟨["6.1.0"], "6.1.0", fun _ => none⟩ "6.1.0" ∈
        keptRecords ⟨["6.1.0"], "6.1.0", fun _ => none⟩
          ⟨2, 0, false, true, true, 1⟩ 0 ↔
      get_kernel_info ⟨["6.1.0"], "6.1.0", fun _ => none⟩ "6.1.0" ∉
        identify_kernels_to_remove ⟨["6.1.0"], "6.1.0", fun _ => none⟩
          ⟨2, 0, false, true, true, 1⟩ 0)) :=
  ⟨by decide, remove_keep_partition _ _ 0 _ (by decide)⟩

/-! ### C2: `exclude_current` always protects the current record -/

/-- C2.  Whenever `exclude_current` is set, a catalog record marked
current is never in the remove list, for any values of the remaining
policy fields. -/
theorem excluded_current_not_removed (st : KernelState)
    (p : KernelCleanupPolicy) (now : Int) (k : KernelInfo)
    (hec : p.exclude_current = true) (hk : k ∈ catalogInfos st)
    (hc : k.is_current = true) :
    k ∉ identify_kernels_to_remove st p now := by
  have hsome : ((catalogInfos st).find? (fun j => j.is_current)).isSome :=
    List.find?_isSome.2 ⟨k, hk, hc⟩
  obtain ⟨c, hfind⟩ := Option.isSome_iff_exists.1 hsome
  have hcur : c.is_current = true := List.find?_some hfind
  obtain ⟨u, _, rfl⟩ := List.mem_map.1 (List.mem_of_find?_eq_some hfind)
  obtain ⟨w, hw, rfl⟩ := List.mem_map.1 hk
  have h1 : u = st.current := by
    simpa [get_kernel_info] using hcur
  have h2 : w = st.current := by
    simpa [get_kernel_info] using hc
  have hvk : (get_kernel_info st w).version ∈ keep_current st p := by
    rw [keep_current]
    simp only [hec, if_true, hfind]
    simp [get_kernel_info, h1, h2]
  have hkeep : (get_kernel_info st w).version ∈ keepList st p now :=
    keep_after_exclusions_subset_keepList st p now
      (keep_current_subset st p hvk)
  intro hmem
  rw [identify_kernels_to_remove, List.mem_filter] at hmem
  simp [hkeep] at hmem

/-- Witness for C2: two kernels, the newest one is running, default
policy. -/
theorem excluded_current_not_removed_witness :
    (⟨2, 30, false, true, true, 1⟩ : KernelCleanupPolicy).exclude_current
        = true ∧
    (get_kernel_info ⟨["6.1.0", "6.0.5"], "6.1.0", fun _ => none⟩ "6.1.0" ∈
      catalogInfos ⟨["6.1.0", "6.0.5"], "6.1.0", fun _ => none⟩) ∧
    (get_kernel_info ⟨["6.1.0", "6.0.5"], "6.1.0", fun _ => none⟩
        "6.1.0").is_current = true ∧
    (get_kernel_info ⟨["6.1.0", "6.0.5"], "6.1.0", fun _ => none⟩ "6.1.0" ∉
      identify_kernels_to_remove ⟨["6.1.0", "6.0.5"], "6.1.0", fun _ => none⟩
        ⟨2, 30, false, true, true, 1⟩ 0) :=
  ⟨by decide, by decide, by decide,
    excluded_current_not_removed _ _ 0 _ (by decide) (by decide) (by decide)⟩

/-! ### C8: records with unknown install date and the recency rule -/

/-- C8.  With `keep_days > 0`, a version whose install date is unknown
(missing, `"Unknown"`, or unparseable — modelled as
`installDate v = none`) is in the keep list after the recency rule
exactly when it was already in it before: the recency rule never
protects such a record, only the exclusions, `keep_latest`, or the
`min_kernels` top-up can. -/
theorem unknown_date_not_protected_by_days (st : KernelState)
    (p : KernelCleanupPolicy) (now : Int) (v : String)
    (hd : p.keep_days > 0) (hu : st.installDate v = none) :
    v ∈ keep_after_days st p now ↔ v ∈ keep_after_latest st p := by
  rw [keep_after_days, if_pos hd, mem_daysFold]
  constructor
  · rintro (h | ⟨k, hk, hv, t, hdate, _⟩)
    · exact h
    · obtain ⟨u, _, rfl⟩ := List.mem_map.1 hk
      have hu2 : u = v := by simpa [get_kernel_info] using hv
      rw [get_kernel_info] at hdate
      simp only [hu2] at hdate
      rw [hu] at hdate
      cases hdate
  · exact Or.inl

/-- Witness for C8: a kernel installed at an unknown date, 30-day
policy. -/
theorem unknown_date_not_protected_by_days_witness :
    (⟨0, 30, false, false, false, 1⟩ : KernelCleanupPolicy).keep_days > 0 ∧
    (⟨["6.1.0", "6.0.5"], "", fun _ => none⟩ :
        KernelState).installDate "6.0.5" = none ∧
    ("6.0.5" ∈ keep_after_days ⟨["6.1.0", "6.0.5"], "", fun _ => none⟩
        ⟨0, 30, false, false, false, 1⟩ 1000000 ↔
      "6.0.5" ∈ keep_after_latest ⟨["6.1.0", "6.0.5"], "", fun _ => none⟩
        ⟨0, 30, false, false, false, 1⟩) :=
  ⟨by decide, rfl,
    unknown_date_not_protected_by_days _ _ 1000000 _ (by decide) rfl⟩

/-! ### C3: a catalog with exactly one kernel -/

/-- C3 counterexample.  A catalog with exactly one kernel and a
well-formed policy (`min_kernels = 1`) for which the engine removes
that kernel: the running kernel is not among the listed ones, so the
fallback equals the uname string, `exclude_fallback` appends it to the
keep list, and the phantom alone satisfies the `min_kernels` floor. -/
theorem single_kernel_removed_counterexample :
    ((⟨["5.10.0-19-amd64"], "6.1.0-13-amd64", fun _ => none⟩ :
        KernelState).installed.length = 1) ∧
    (1 ≤ (⟨0, 0, false, true, true, 1⟩ :
        KernelCleanupPolicy).min_kernels) ∧
    identify_kernels_to_remove
        ⟨["5.10.0-19-amd64"], "6.1.0-13-amd64", fun _ => none⟩
        ⟨0, 0, false, true, true, 1⟩ 0 =
      [get_kernel_info
        ⟨["5.10.0-19-amd64"], "6.1.0-13-amd64", fun _ => none⟩
        "5.10.0-19-amd64"] := by
  refine ⟨rfl, by decide, ?_⟩
  decide

/-- C3 as amended.  For a catalog with exactly one kernel and any
well-formed policy (`min_kernels ≥ 1`), the engine keeps that kernel
and removes nothing — provided the fallback cannot be a phantom:
`exclude_fallback` is off, or the running-kernel string is empty, or it
is the one listed kernel. -/
theorem single_kernel_never_removed (st : KernelState)
    (p : KernelCleanupPolicy) (now : Int) (v : String)
    (hst : st.installed = [v]) (hmin : 1 ≤ p.min_kernels)
    (hfb : p.exclude_fallback = false ∨ st.current = "" ∨
      st.current = v) :
    identify_kernels_to_remove st p now = [] ∧ v ∈ keepList st p now := by
  have hfall : fallback_kernel st = st.current := by
    rw [fallback_kernel, hst]
  have hall : ∀ x ∈ keepList st p now, x = v := by
    intro x hx
    rcases mem_keepList_cases st p now hx with h | ⟨hx2, hef, hne⟩
    · rw [hst] at h
      exact List.mem_singleton.1 h
    · rcases hfb with h | h | h
      · rw [h] at hef
        cases hef
      · rw [hfall, h] at hne
        exact absurd rfl hne
      · rw [hx2, hfall, h]
  have hinfos : catalogInfos st = [get_kernel_info st v] := by
    rw [catalogInfos, hst, List.map_singleton]
  have hv : v ∈ keepList st p now := by
    rw [keepList]
    by_cases hlen :
        (keep_after_days st p now).length < p.min_kernels
    · rw [if_pos hlen, hinfos]
      simp only [topUp]
      rw [if_neg (by omega)]
      by_cases hmem : (get_kernel_info st v).version ∈
          keep_after_days st p now
      · rw [if_pos hmem]
        exact hmem
      · rw [if_neg hmem]
        simp [topUp, get_kernel_info]
    · rw [if_neg hlen]
      have hne : keep_after_days st p now ≠ [] := by
        intro h
        rw [h] at hlen
        simp at hlen
        omega
      obtain ⟨x, hx⟩ := List.exists_mem_of_ne_nil _ hne
      have hxv : x = v := by
        apply hall
        rw [keepList, if_neg hlen]
        exact hx
      exact hxv ▸ hx
  refine ⟨?_, hv⟩
  rw [identify_kernels_to_remove, hinfos]
  simp only [List.filter_eq_nil_iff]
  intro k hk
  rw [List.mem_singleton] at hk
  subst hk
  simp [get_kernel_info, hv]

/-- Witness for the amended C3: a single kernel which is also the
running one, with every protection rule off except the floor. -/
theorem single_kernel_never_removed_witness :
    ((⟨["6.1.0"], "6.1.0", fun _ => none⟩ :
        KernelState).installed = ["6.1.0"]) ∧
    (1 ≤ (⟨0, 0, false, false, false, 1⟩ :
        KernelCleanupPolicy).min_kernels) ∧
    ((⟨["6.1.0"], "6.1.0", fun _ => none⟩ : KernelState).current =
      "6.1.0") ∧
    (identify_kernels_to_remove ⟨["6.1.0"], "6.1.0", fun _ => none⟩
        ⟨0, 0, false, false, false, 1⟩ 0 = [] ∧
      "6.1.0" ∈ keepList ⟨["6.1.0"], "6.1.0", fun _ => none⟩
        ⟨0, 0, false, false, false, 1⟩ 0) :=
  ⟨rfl, by decide, rfl,
    single_kernel_never_removed _ _ 0 _ rfl (by decide)
      (Or.inr (Or.inr rfl))⟩

/-! ### C5: a kernel that is current, fallback and inside the latest N -/

/-- C5 counterexample.  Two kernels, the second-newest one running (so
current = fallback), both exclusions on, `keep_latest = 2`: the
unguarded fallback append (line 280) puts the version in the keep list
twice, not once. -/
theorem overlap_not_single_counterexample :
    ((⟨["6.1.0", "6.0.5"], "6.0.5", fun _ => none⟩ :
        KernelState).current = "6.0.5") ∧
    (fallback_kernel ⟨["6.1.0", "6.0.5"], "6.0.5", fun _ => none⟩ =
      "6.0.5") ∧
    ("6.0.5" ∈ latestVersions
      ⟨["6.1.0", "6.0.5"], "6.0.5", fun _ => none⟩
      ⟨2, 0, false, true, true, 1⟩) ∧
    ¬((keepList ⟨["6.1.0", "6.0.5"], "6.0.5", fun _ => none⟩
        ⟨2, 0, false, true, true, 1⟩ 0).count "6.0.5" = 1) := by
  refine ⟨rfl, rfl, by decide, ?_⟩
  decide

/-- C5 as amended.  A kernel that is simultaneously current, fallback
and within the newest `keep_latest` appears in the keep collection
exactly once — except when `exclude_current` and `exclude_fallback` are
both set, in which case the unguarded fallback append duplicates it and
it appears exactly twice; the duplicate inflates the length compared
against `min_kernels`. -/
theorem overlap_count (st : KernelState) (p : KernelCleanupPolicy)
    (now : Int) (v : String) (hv : v ∈ st.installed) (hne : v ≠ "")
    (hcur : st.current = v) (hfall : fallback_kernel st = v)
    (hlat : v ∈ latestVersions st p) :
    (keepList st p now).count v =
      if p.exclude_current && p.exclude_fallback then 2 else 1 := by
  have hkc : p.exclude_current = true → keep_current st p = [v] := by
    intro hec
    have hsome : ((catalogInfos st).find? (fun j => j.is_current)).isSome := by
      refine List.find?_isSome.2 ⟨get_kernel_info st v, ?_, ?_⟩
      · exact List.mem_map.2 ⟨v, hv, rfl⟩
      · show (v == st.current) = true
        rw [hcur]
        simp
    obtain ⟨c, hfind⟩ := Option.isSome_iff_exists.1 hsome
    have hcv : c.version = v := by
      obtain ⟨u, _, rfl⟩ := List.mem_map.1 (List.mem_of_find?_eq_some hfind)
      have hb : (get_kernel_info st u).is_current = true :=
        List.find?_some hfind
      have hu2 : u = st.current := by simpa [get_kernel_info] using hb
      show u = v
      rw [hu2, hcur]
    rw [keep_current, if_pos hec, hfind]
    show [c.version] = [v]
    rw [hcv]
  have hkc0 : p.exclude_current = false → keep_current st p = [] := by
    intro hec
    rw [keep_current, hec]
    simp
  have hguard : (p.exclude_fallback && (fallback_kernel st != "")) =
      p.exclude_fallback := by
    rw [hfall]
    cases p.exclude_fallback <;> simp [hne]
  have hk2 : keep_after_exclusions st p =
      (if p.exclude_current = true then [v] else []) ++
        (if p.exclude_fallback = true then [v] else []) := by
    rw [keep_after_exclusions, hguard]
    cases hef : p.exclude_fallback
    · simp only [Bool.false_eq_true, if_false, List.append_nil]
      cases hec : p.exclude_current
      · rw [hkc0 hec]
        simp
      · rw [hkc hec]
        simp
    · simp only [if_true, hfall]
      cases hec : p.exclude_current
      · rw [hkc0 hec]
        simp
      · rw [hkc hec]
        simp
  have hc3 : (keep_after_latest st p).count v =
      if p.exclude_current && p.exclude_fallback then 2 else 1 := by
    rw [keep_after_latest, count_addMissing, hk2]
    cases hec : p.exclude_current <;> cases hef : p.exclude_fallback <;>
      simp [hlat, List.count_append]
  have hm3 : v ∈ keep_after_latest st p := by
    have : 0 < (keep_after_latest st p).count v := by
      rw [hc3]
      split <;> omega
    exact List.count_pos_iff.1 this
  have hc4 : (keep_after_days st p now).count v =
      if p.exclude_current && p.exclude_fallback then 2 else 1 := by
    rw [keep_after_days]
    split
    · rw [count_daysFold_of_mem _ _ _ hm3, hc3]
    · exact hc3
  have hm4 : v ∈ keep_after_days st p now :=
    keep_after_latest_subset_days st p now hm3
  rw [keepList]
  split
  · rw [count_topUp_of_mem _ _ _ hm4, hc4]
  · exact hc4

/-- Witness for the amended C5 at the counterexample instance: both
exclusions on gives count two. -/
theorem overlap_count_witness :
    ("6.0.5" ∈ (⟨["6.1.0", "6.0.5"], "6.0.5", fun _ => none⟩ :
        KernelState).installed) ∧
    ("6.0.5" ≠ "") ∧
    ((⟨["6.1.0", "6.0.5"], "6.0.5", fun _ => none⟩ :
        KernelState).current = "6.0.5") ∧
    (fallback_kernel ⟨["6.1.0", "6.0.5"], "6.0.5", fun _ => none⟩ =
      "6.0.5") ∧
    ("6.0.5" ∈ latestVersions
      ⟨["6.1.0", "6.0.5"], "6.0.5", fun _ => none⟩
      ⟨2, 0, false, true, false, 1⟩) ∧
    ((keepList ⟨["6.1.0", "6.0.5"], "6.0.5", fun _ => none⟩
        ⟨2, 0, false, true, false, 1⟩ 0).count "6.0.5" =
      if (⟨2, 0, false, true, false, 1⟩ :
          KernelCleanupPolicy).exclude_current &&
        (⟨2, 0, false, true, false, 1⟩ :
          KernelCleanupPolicy).exclude_fallback then 2 else 1) :=
  ⟨by decide, by decide, rfl, rfl, by decide,
    overlap_count _ _ 0 _ (by decide) (by decide) rfl rfl (by decide)⟩

/-! ### C6: failure reporting in `remove_kernels` -/

/-- C6 counterexample.  At a concrete input where package removal
succeeds and `update-grub` fails, the surfacing log entry has level
`error` — exactly the level used by the package-removal failure path —
and no entry of the run uses a distinct `warning`-style severity: the
bootloader-refresh failure is not reported at a different, higher
severity than a package-removal failure, contrary to the claim. -/
theorem bootloader_failure_same_severity_counterexample :
    ((remove_kernels ["5.10.0"] false true "x" false).log.getLast?).map
        LogEntry.level = some LogLevel.error ∧
    ((remove_kernels ["5.10.0"] false false "boom" true).log.getLast?).map
        LogEntry.level = some LogLevel.error ∧
    (∀ e ∈ (remove_kernels ["5.10.0"] false true "x" false).log,
      e.level ≠ LogLevel.warning) := by
  decide

/-- C6 as amended.  When package removal succeeds and the bootloader
refresh fails, `remove_kernels` returns `False` and logs — via the
generic exception handler, at the same `error` severity as a removal
failure — a message distinct in text from the package-removal failure
message, so the failure is surfaced and distinguishable but not at a
higher severity; and when package removal fails, `update-grub` is not
invoked and the stderr diagnostic is surfaced. -/
theorem bootloader_failure_surfaced (ks : List String) (s : String)
    (h : ks ≠ []) :
    ((remove_kernels ks false true s false).ok = false ∧
      (remove_kernels ks false true s false).grubInvoked = true ∧
      (⟨LogLevel.error,
        "Error during kernel removal: Command update-grub returned non-zero exit status"⟩ :
          LogEntry) ∈ (remove_kernels ks false true s false).log ∧
      (∀ e ∈ (remove_kernels ks false true s false).log,
        e.level = LogLevel.error →
          e.msg =
            "Error during kernel removal: Command update-grub returned non-zero exit status")) ∧
    ((remove_kernels ks false false s true).ok = false ∧
      (remove_kernels ks false false s true).grubInvoked = false ∧
      (⟨LogLevel.error, "Kernel removal failed: " ++ s⟩ : LogEntry) ∈
        (remove_kernels ks false false s true).log) := by
  have hne : ks.isEmpty = false := by
    cases ks with
    | nil => exact absurd rfl h
    | cons a l => rfl
  refine ⟨⟨?_, ?_, ?_, ?_⟩, ?_, ?_, ?_⟩
  · simp [remove_kernels, hne]
  · simp [remove_kernels, hne]
  · simp [remove_kernels, hne]
  · intro e he hel
    simp only [remove_kernels, hne] at he
    simp at he
    rcases he with rfl | rfl | rfl | rfl | rfl <;>
      first
        | rfl
        | simp at hel
  · simp [remove_kernels, hne]
  · simp [remove_kernels, hne]
  · simp [remove_kernels, hne]

/-- Witness for the amended C6 at a concrete kernel list and stderr
text. -/
theorem bootloader_failure_surfaced_witness :
    (["5.15.0"] : List String) ≠ [] ∧
    (((remove_kernels ["5.15.0"] false true "oops" false).ok = false ∧
      (remove_kernels ["5.15.0"] false true "oops" false).grubInvoked
          = true ∧
      (⟨LogLevel.error,
        "Error during kernel removal: Command update-grub returned non-zero exit status"⟩ :
          LogEntry) ∈ (remove_kernels ["5.15.0"] false true "oops" false).log ∧
      (∀ e ∈ (remove_kernels ["5.15.0"] false true "oops" false).log,
        e.level = LogLevel.error →
          e.msg =
            "Error during kernel removal: Command update-grub returned non-zero exit status")) ∧
    ((remove_kernels ["5.15.0"] false false "oops" true).ok = false ∧
      (remove_kernels ["5.15.0"] false false "oops" true).grubInvoked
          = false ∧
      (⟨LogLevel.error, "Kernel removal failed: " ++ "oops"⟩ :
          LogEntry) ∈
        (remove_kernels ["5.15.0"] false false "oops" true).log)) :=
  ⟨by decide, bootloader_failure_surfaced ["5.15.0"] "oops" (by decide)⟩

/-! ### C10: the phantom fallback version -/

/-- C10.  A concrete catalog and policy where the keep list built by the
engine contains a version belonging to no catalog record: with a single
listed kernel, `_get_fallback_kernel` falls back to the `uname -r`
string; with `exclude_fallback` set it is appended to the keep list
without any membership check, it satisfies the `min_kernels = 1` floor
by itself, and the only real catalog kernel is removed. -/
theorem phantom_fallback_counted :
    ("6.1.0-13-amd64" ∈ keepList
      ⟨["5.10.0-19-amd64"], "6.1.0-13-amd64", fun _ => none⟩
      ⟨0, 0, false, true, true, 1⟩ 0) ∧
    ("6.1.0-13-amd64" ∉
      (⟨["5.10.0-19-amd64"], "6.1.0-13-amd64", fun _ => none⟩ :
        KernelState).installed) ∧
    ((⟨["5.10.0-19-amd64"], "6.1.0-13-amd64", fun _ => none⟩ :
        KernelState).installed.length < 2) ∧
    (fallback_kernel
        ⟨["5.10.0-19-amd64"], "6.1.0-13-amd64", fun _ => none⟩ =
      (⟨["5.10.0-19-amd64"], "6.1.0-13-amd64", fun _ => none⟩ :
        KernelState).current) ∧
    identify_kernels_to_remove
        ⟨["5.10.0-19-amd64"], "6.1.0-13-amd64", fun _ => none⟩
        ⟨0, 0, false, true, true, 1⟩ 0 ≠ [] := by
  refine ⟨by decide, by decide, by decide, rfl, ?_⟩
  decide

/-! ### Congruence and monotonicity of the loops (for C9) -/

theorem topUp_mono_min {m1 m2 : Nat} (hm : m1 ≤ m2)
    (infos : List KernelInfo) (acc : List String) :
    ∀ v ∈ topUp infos m1 acc, v ∈ topUp infos m2 acc := by
  induction infos generalizing acc with
  | nil => exact fun _ hv => hv
  | cons k ks ih =>
    intro v hv
    simp only [topUp] at hv ⊢
    by_cases h1 : acc.length ≥ m1
    · rw [if_pos h1] at hv
      by_cases h2 : acc.length ≥ m2
      · rwa [if_pos h2]
      · rw [if_neg h2]
        by_cases hk : k.version ∈ acc
        · rw [if_pos hk]
          exact subset_topUp _ _ _ hv
        · rw [if_neg hk]
          exact subset_topUp _ _ _ (List.mem_append.2 (Or.inl hv))
    · rw [if_neg h1] at hv
      have h2 : ¬acc.length ≥ m2 := fun h => h1 (le_trans hm h)
      rw [if_neg h2]
      by_cases hk : k.version ∈ acc
      · rw [if_pos hk] at hv
        rw [if_pos hk]
        exact ih _ v hv
      · rw [if_neg hk] at hv
        rw [if_neg hk]
        exact ih _ v hv

theorem topUp_congr {acc1 acc2 : List String}
    (infos : List KernelInfo) (m : Nat)
    (hmem : ∀ v, v ∈ acc1 ↔ v ∈ acc2)
    (hlen : acc1.length = acc2.length) :
    (∀ v, v ∈ topUp infos m acc1 ↔ v ∈ topUp infos m acc2) ∧
      (topUp infos m acc1).length = (topUp infos m acc2).length := by
  induction infos generalizing acc1 acc2 with
  | nil => exact ⟨hmem, hlen⟩
  | cons k ks ih =>
    simp only [topUp]
    by_cases h1 : acc1.length ≥ m
    · rw [if_pos h1, if_pos (by omega : acc2.length ≥ m)]
      exact ⟨hmem, hlen⟩
    · rw [if_neg h1, if_neg (by omega : ¬acc2.length ≥ m)]
      by_cases hk : k.version ∈ acc1
      · rw [if_pos hk, if_pos ((hmem _).1 hk)]
        exact ih hmem hlen
      · rw [if_neg hk, if_neg (fun h => hk ((hmem _).2 h))]
        refine ih ?_ ?_
        · intro v
          simp [List.mem_append, hmem v]
        · simp [hlen]

theorem daysFold_congr (c : Int) (infos : List KernelInfo)
    {acc1 acc2 : List String}
    (hmem : ∀ v, v ∈ acc1 ↔ v ∈ acc2)
    (hlen : acc1.length = acc2.length) :
    (∀ v, v ∈ daysFold c infos acc1 ↔ v ∈ daysFold c infos acc2) ∧
      (daysFold c infos acc1).length =
        (daysFold c infos acc2).length := by
  induction infos generalizing acc1 acc2 with
  | nil => exact ⟨hmem, hlen⟩
  | cons k ks ih =>
    simp only [daysFold, List.foldl_cons] at *
    rcases hd : k.install_date with _ | t <;> simp only [hd]
    · exact ih hmem hlen
    · by_cases hc : t > c ∧ k.version ∉ acc1
      · rw [if_pos hc,
          if_pos ⟨hc.1, fun h => hc.2 ((hmem _).2 h)⟩]
        refine ih ?_ ?_
        · intro v
          simp [List.mem_append, hmem v]
        · simp [hlen]
      · rw [if_neg hc]
        have hc2 : ¬(t > c ∧ k.version ∉ acc2) := fun h =>
          hc ⟨h.1, fun hm => h.2 ((hmem _).1 hm)⟩
        rw [if_neg hc2]
        exact ih hmem hlen

theorem daysFold_ext (c : Int) (infos : List KernelInfo) (w : String)
    {accA accB : List String}
    (hmem : ∀ v, v ∈ accB ↔ v ∈ accA ∨ v = w)
    (hlen : accB.length = accA.length + 1)
    (hw : w ∉ accA) :
    (∀ v, v ∈ daysFold c infos accB ↔
      v ∈ daysFold c infos accA ∨ v = w) ∧
    (daysFold c infos accB).length =
      (daysFold c infos accA).length +
        (if w ∈ daysFold c infos accA then 0 else 1) := by
  induction infos generalizing accA accB with
  | nil =>
    refine ⟨hmem, ?_⟩
    show accB.length = accA.length + (if w ∈ accA then 0 else 1)
    rw [if_neg hw, hlen]
  | cons k ks ih =>
    obtain ⟨kv, kc, kdt, kf⟩ := k
    simp only [daysFold, List.foldl_cons] at *
    rcases kdt with _ | t <;> dsimp only
    · exact ih hmem hlen hw
    · by_cases hcA : t > c ∧ kv ∉ accA
      · rw [if_pos hcA]
        by_cases hkw : kv = w
        · subst hkw
          have hkB : ¬(t > c ∧ kv ∉ accB) := fun h =>
            h.2 ((hmem _).2 (Or.inr rfl))
          rw [if_neg hkB]
          show (∀ v, v ∈ daysFold c ks accB ↔
              v ∈ daysFold c ks (accA ++ [kv]) ∨ v = kv) ∧
            (daysFold c ks accB).length =
              (daysFold c ks (accA ++ [kv])).length +
                (if kv ∈ daysFold c ks (accA ++ [kv]) then 0 else 1)
          have hmem2 : ∀ v, v ∈ accB ↔ v ∈ accA ++ [kv] := by
            intro v
            rw [hmem v, List.mem_append, List.mem_singleton]
          have hlen2 : accB.length = (accA ++ [kv]).length := by
            simp [hlen]
          obtain ⟨hm, hl⟩ := daysFold_congr c ks hmem2 hlen2
          have hwin : kv ∈ daysFold c ks (accA ++ [kv]) :=
            subset_daysFold _ _ _
              (List.mem_append.2 (Or.inr (List.mem_singleton.2 rfl)))
          refine ⟨?_, ?_⟩
          · intro v
            rw [hm v]
            constructor
            · exact Or.inl
            · rintro (h | rfl)
              · exact h
              · exact hwin
          · rw [hl, if_pos hwin, Nat.add_zero]
        · have hcB : t > c ∧ kv ∉ accB := by
            refine ⟨hcA.1, fun h => ?_⟩
            rcases (hmem _).1 h with h2 | h2
            · exact hcA.2 h2
            · exact hkw h2
          rw [if_pos hcB]
          refine ih ?_ ?_ ?_
          · intro v
            simp only [List.mem_append, List.mem_singleton, hmem v]
            tauto
          · simp [hlen]
          · intro h
            rcases List.mem_append.1 h with h | h
            · exact hw h
            · exact hkw (List.mem_singleton.1 h).symm
      · rw [if_neg hcA]
        by_cases hcB : t > c ∧ kv ∉ accB
        · exfalso
          rcases not_and_or.1 hcA with h | h
          · exact h hcB.1
          · exact hcB.2 ((hmem _).2 (Or.inl (not_not.1 h)))
        · rw [if_neg hcB]
          exact ih hmem hlen hw

theorem topUp_skip_seen (pre post : List KernelInfo) (m : Nat)
    (acc : List String) (hpre : ∀ k ∈ pre, k.version ∈ acc) :
    topUp (pre ++ post) m acc = topUp post m acc := by
  induction pre with
  | nil => rfl
  | cons k ks ih =>
    simp only [List.cons_append, topUp]
    by_cases hlen : acc.length ≥ m
    · rw [if_pos hlen, topUp_of_length_ge post hlen]
    · rw [if_neg hlen, if_pos (hpre k (List.mem_cons_self _ _))]
      exact ih (fun j hj => hpre j (List.mem_cons_of_mem _ hj))

/-- Growing `keep_latest` by one never loses a kept version: the newly
protected catalog entry is exactly the first candidate the
`min_kernels` top-up would otherwise reach, so the final keep set only
grows. -/
theorem keepList_mono_latest_succ (st : KernelState) (now : Int)
    (_hnd : st.installed.Nodup) (kl kd : Nat) (dr ec ef : Bool)
    (mk : Nat) :
    ∀ v ∈ keepList st ⟨kl, kd, dr, ec, ef, mk⟩ now,
      v ∈ keepList st ⟨kl + 1, kd, dr, ec, ef, mk⟩ now := by
  intro v hv
  have hK2 : keep_after_exclusions st ⟨kl + 1, kd, dr, ec, ef, mk⟩ =
      keep_after_exclusions st ⟨kl, kd, dr, ec, ef, mk⟩ := rfl
  have hA_unfold : keep_after_latest st ⟨kl, kd, dr, ec, ef, mk⟩ =
      addMissing (((catalogInfos st).take kl).map (fun k => k.version))
        (keep_after_exclusions st ⟨kl, kd, dr, ec, ef, mk⟩) := by
    rw [keep_after_latest, latestVersions_eq]
  rcases hnth : (catalogInfos st)[kl]? with _ | kN
  · have hEq : keep_after_latest st ⟨kl + 1, kd, dr, ec, ef, mk⟩ =
        keep_after_latest st ⟨kl, kd, dr, ec, ef, mk⟩ := by
      rw [keep_after_latest, keep_after_latest, latestVersions_eq,
        latestVersions_eq]
      dsimp only
      rw [hK2, List.take_succ, hnth]
      simp
    have hkeepEq : keepList st ⟨kl + 1, kd, dr, ec, ef, mk⟩ now =
        keepList st ⟨kl, kd, dr, ec, ef, mk⟩ now := by
      rw [keepList, keepList, keep_after_days, keep_after_days]
      dsimp only
      rw [hEq]
    rw [hkeepEq]
    exact hv
  · have hnth2 := hnth
    rw [List.getElem?_eq_some] at hnth2
    obtain ⟨hklen, hkeq⟩ := hnth2
    have hB_unfold : keep_after_latest st ⟨kl + 1, kd, dr, ec, ef, mk⟩ =
        addMissing [kN.version]
          (keep_after_latest st ⟨kl, kd, dr, ec, ef, mk⟩) := by
      rw [keep_after_latest, latestVersions_eq]
      dsimp only
      rw [hK2, List.take_succ, hnth]
      rw [show (some kN).toList = [kN] from rfl, List.map_append,
        addMissing_append, ← hA_unfold]
      rfl
    by_cases hmemA : kN.version ∈
        keep_after_latest st ⟨kl, kd, dr, ec, ef, mk⟩
    · have hEq : keep_after_latest st ⟨kl + 1, kd, dr, ec, ef, mk⟩ =
          keep_after_latest st ⟨kl, kd, dr, ec, ef, mk⟩ := by
        rw [hB_unfold]
        show (if kN.version ∈
            keep_after_latest st ⟨kl, kd, dr, ec, ef, mk⟩ then
          keep_after_latest st ⟨kl, kd, dr, ec, ef, mk⟩
        else keep_after_latest st ⟨kl, kd, dr, ec, ef, mk⟩ ++
          [kN.version]) = keep_after_latest st ⟨kl, kd, dr, ec, ef, mk⟩
        rw [if_pos hmemA]
      have hkeepEq : keepList st ⟨kl + 1, kd, dr, ec, ef, mk⟩ now =
          keepList st ⟨kl, kd, dr, ec, ef, mk⟩ now := by
        rw [keepList, keepList, keep_after_days, keep_after_days]
        dsimp only
        rw [hEq]
      rw [hkeepEq]
      exact hv
    · have hBA : keep_after_latest st ⟨kl + 1, kd, dr, ec, ef, mk⟩ =
          keep_after_latest st ⟨kl, kd, dr, ec, ef, mk⟩ ++
            [kN.version] := by
        rw [hB_unfold]
        show (if kN.version ∈
            keep_after_latest st ⟨kl, kd, dr, ec, ef, mk⟩ then
          keep_after_latest st ⟨kl, kd, dr, ec, ef, mk⟩
        else keep_after_latest st ⟨kl, kd, dr, ec, ef, mk⟩ ++
          [kN.version]) =
          keep_after_latest st ⟨kl, kd, dr, ec, ef, mk⟩ ++ [kN.version]
        rw [if_neg hmemA]
      have hdaysA : keep_after_days st ⟨kl, kd, dr, ec, ef, mk⟩ now =
          if kd > 0 then
            daysFold (now - (kd : Int) * 86400) (catalogInfos st)
              (keep_after_latest st ⟨kl, kd, dr, ec, ef, mk⟩)
          else keep_after_latest st ⟨kl, kd, dr, ec, ef, mk⟩ := rfl
      have hdaysB :
          keep_after_days st ⟨kl + 1, kd, dr, ec, ef, mk⟩ now =
          if kd > 0 then
            daysFold (now - (kd : Int) * 86400) (catalogInfos st)
              (keep_after_latest st ⟨kl + 1, kd, dr, ec, ef, mk⟩)
          else keep_after_latest st ⟨kl + 1, kd, dr, ec, ef, mk⟩ := rfl
      have hext : (∀ x,
          x ∈ keep_after_days st ⟨kl + 1, kd, dr, ec, ef, mk⟩ now ↔
            x ∈ keep_after_days st ⟨kl, kd, dr, ec, ef, mk⟩ now ∨
              x = kN.version) ∧
          (keep_after_days st ⟨kl + 1, kd, dr, ec, ef, mk⟩ now).length =
            (keep_after_days st ⟨kl, kd, dr, ec, ef, mk⟩ now).length +
              (if kN.version ∈
                  keep_after_days st ⟨kl, kd, dr, ec, ef, mk⟩ now
                then 0 else 1) := by
        rw [hdaysA, hdaysB, hBA]
        by_cases hkd : kd > 0
        · simp only [if_pos hkd]
          exact daysFold_ext _ _ _ (fun x => by simp) (by simp) hmemA
        · simp only [if_neg hkd]
          refine ⟨fun x => by simp, ?_⟩
          rw [if_neg hmemA]
          simp
      obtain ⟨hmemB4, hlenB4⟩ := hext
      have hpreA4 : ∀ k ∈ (catalogInfos st).take kl, k.version ∈
          keep_after_days st ⟨kl, kd, dr, ec, ef, mk⟩ now := by
        intro k hk
        refine keep_after_latest_subset_days st _ now ?_
        rw [hA_unfold]
        exact (mem_addMissing _ _).2 (Or.inr (List.mem_map.2 ⟨k, hk, rfl⟩))
      have hdecomp : catalogInfos st =
          (catalogInfos st).take kl ++
            kN :: (catalogInfos st).drop (kl + 1) := by
        conv_lhs => rw [← List.take_append_drop kl (catalogInfos st)]
        rw [List.drop_eq_getElem_cons hklen, hkeq]
      have hkeepA : keepList st ⟨kl, kd, dr, ec, ef, mk⟩ now =
          if (keep_after_days st ⟨kl, kd, dr, ec, ef, mk⟩ now).length <
              mk then
            topUp (catalogInfos st) mk
              (keep_after_days st ⟨kl, kd, dr, ec, ef, mk⟩ now)
          else keep_after_days st ⟨kl, kd, dr, ec, ef, mk⟩ now := rfl
      have hkeepB : keepList st ⟨kl + 1, kd, dr, ec, ef, mk⟩ now =
          if (keep_after_days st
              ⟨kl + 1, kd, dr, ec, ef, mk⟩ now).length < mk then
            topUp (catalogInfos st) mk
              (keep_after_days st ⟨kl + 1, kd, dr, ec, ef, mk⟩ now)
          else keep_after_days st ⟨kl + 1, kd, dr, ec, ef, mk⟩ now := rfl
      rw [hkeepA] at hv
      rw [hkeepB]
      by_cases hwA4 : kN.version ∈
          keep_after_days st ⟨kl, kd, dr, ec, ef, mk⟩ now
      · rw [if_pos hwA4] at hlenB4
        have hmemB4x : ∀ x,
            x ∈ keep_after_days st ⟨kl + 1, kd, dr, ec, ef, mk⟩ now ↔
              x ∈ keep_after_days st ⟨kl, kd, dr, ec, ef, mk⟩ now := by
          intro x
          rw [hmemB4 x]
          constructor
          · rintro (h | rfl)
            · exact h
            · exact hwA4
          · exact Or.inl
        split at hv <;> rename_i hcond
        · rw [if_pos (by omega :
            (keep_after_days st
              ⟨kl + 1, kd, dr, ec, ef, mk⟩ now).length < mk)]
          exact ((topUp_congr (catalogInfos st) mk
            (fun x => (hmemB4x x).symm) (by omega)).1 v).1 hv
        · rw [if_neg (by omega : ¬(keep_after_days st
            ⟨kl + 1, kd, dr, ec, ef, mk⟩ now).length < mk)]
          exact (hmemB4x v).2 hv
      · rw [if_neg hwA4] at hlenB4
        split at hv <;> rename_i hcond
        · have hstepA : topUp (catalogInfos st) mk
              (keep_after_days st ⟨kl, kd, dr, ec, ef, mk⟩ now) =
              topUp ((catalogInfos st).drop (kl + 1)) mk
                (keep_after_days st ⟨kl, kd, dr, ec, ef, mk⟩ now ++
                  [kN.version]) := by
            conv_lhs => rw [hdecomp]
            rw [topUp_skip_seen _ _ _ _ hpreA4]
            simp only [topUp]
            rw [if_neg (by omega : ¬(keep_after_days st
                ⟨kl, kd, dr, ec, ef, mk⟩ now).length ≥ mk),
              if_neg hwA4]
          rw [hstepA] at hv
          by_cases hcondB : (keep_after_days st
              ⟨kl + 1, kd, dr, ec, ef, mk⟩ now).length < mk
          · rw [if_pos hcondB]
            have hstepB : topUp (catalogInfos st) mk
                (keep_after_days st ⟨kl + 1, kd, dr, ec, ef, mk⟩ now) =
                topUp ((catalogInfos st).drop (kl + 1)) mk
                  (keep_after_days st
                    ⟨kl + 1, kd, dr, ec, ef, mk⟩ now) := by
              conv_lhs => rw [hdecomp]
              rw [topUp_skip_seen _ _ _ _ (fun k hk =>
                (hmemB4 k.version).2 (Or.inl (hpreA4 k hk)))]
              simp only [topUp]
              rw [if_neg (by omega : ¬(keep_after_days st
                  ⟨kl + 1, kd, dr, ec, ef, mk⟩ now).length ≥ mk),
                if_pos ((hmemB4 kN.version).2 (Or.inr rfl))]
            rw [hstepB]
            refine ((topUp_congr _ mk ?_ ?_).1 v).1 hv
            · intro x
              rw [List.mem_append, List.mem_singleton, hmemB4 x]
            · simp only [List.length_append, List.length_singleton]
              omega
          · rw [if_neg hcondB]
            rw [topUp_of_length_ge _ (by
              simp only [List.length_append, List.length_singleton]
              omega)] at hv
            rcases List.mem_append.1 hv with h | h
            · exact (hmemB4 v).2 (Or.inl h)
            · exact (hmemB4 v).2 (Or.inr (List.mem_singleton.1 h))
        · rw [if_neg (by omega : ¬(keep_after_days st
            ⟨kl + 1, kd, dr, ec, ef, mk⟩ now).length < mk)]
          exact (hmemB4 v).2 (Or.inl hv)

/-- Growing `min_kernels` never loses a kept version: the stages
before the top-up are unchanged and the top-up loop with a larger floor
appends a superset. -/
theorem keepList_mono_min_add (st : KernelState) (now : Int)
    (kl kd : Nat) (dr ec ef : Bool) (mk d : Nat) :
    ∀ v ∈ keepList st ⟨kl, kd, dr, ec, ef, mk⟩ now,
      v ∈ keepList st ⟨kl, kd, dr, ec, ef, mk + d⟩ now := by
  intro v hv
  have hdays : keep_after_days st ⟨kl, kd, dr, ec, ef, mk + d⟩ now =
      keep_after_days st ⟨kl, kd, dr, ec, ef, mk⟩ now := rfl
  have hkeepA : keepList st ⟨kl, kd, dr, ec, ef, mk⟩ now =
      if (keep_after_days st ⟨kl, kd, dr, ec, ef, mk⟩ now).length <
          mk then
        topUp (catalogInfos st) mk
          (keep_after_days st ⟨kl, kd, dr, ec, ef, mk⟩ now)
      else keep_after_days st ⟨kl, kd, dr, ec, ef, mk⟩ now := rfl
  have hkeepB : keepList st ⟨kl, kd, dr, ec, ef, mk + d⟩ now =
      if (keep_after_days st ⟨kl, kd, dr, ec, ef, mk⟩ now).length <
          mk + d then
        topUp (catalogInfos st) (mk + d)
          (keep_after_days st ⟨kl, kd, dr, ec, ef, mk⟩ now)
      else keep_after_days st ⟨kl, kd, dr, ec, ef, mk⟩ now := rfl
  rw [hkeepA] at hv
  rw [hkeepB]
  split at hv <;> rename_i hcond <;> split <;> rename_i hcond2
  · exact topUp_mono_min (Nat.le_add_right mk d) _ _ v hv
  · exact absurd (by omega :
      (keep_after_days st ⟨kl, kd, dr, ec, ef, mk⟩ now).length <
        mk + d) hcond2
  · exact subset_topUp _ _ _ hv
  · exact hv

/-! ### C9: monotonicity of the retention policy -/

/-- C9 counterexample.  Increasing `keep_days` can shrink the keep set:
with three kernels, no exclusions, `min_kernels = 2` and the oldest
kernel installed yesterday, disabling the days rule keeps the two
newest kernels, while `keep_days = 30` protects the freshly installed
old kernel, which satisfies half the floor and displaces the
second-newest kernel from the keep set. -/
theorem keep_monotone_counterexample :
    ("5.15.0" ∈ keepList
      ⟨["6.1.0", "5.15.0", "5.10.0"], "",
        fun w => if w = "5.10.0" then some 999913600 else none⟩
      ⟨0, 0, false, false, false, 2⟩ 1000000000) ∧
    ("5.15.0" ∉ keepList
      ⟨["6.1.0", "5.15.0", "5.10.0"], "",
        fun w => if w = "5.10.0" then some 999913600 else none⟩
      ⟨0, 30, false, false, false, 2⟩ 1000000000) ∧
    ((⟨0, 0, false, false, false, 2⟩ :
        KernelCleanupPolicy).keep_days ≤
      (⟨0, 30, false, false, false, 2⟩ :
        KernelCleanupPolicy).keep_days) := by
  refine ⟨?_, ?_, by decide⟩ <;> decide

/-- C9 as amended.  Holding the catalog and the current time fixed,
increasing `keep_latest` or `min_kernels` (or both) while keeping the
other policy fields equal never shrinks the keep set; increasing
`keep_days` can shrink it (see the counterexample), so the recency rule
is excluded from the monotonicity guarantee. -/
theorem keep_monotone_latest_min (st : KernelState)
    (p1 p2 : KernelCleanupPolicy) (now : Int)
    (hnd : st.installed.Nodup)
    (hkl : p1.keep_latest ≤ p2.keep_latest)
    (hkd : p1.keep_days = p2.keep_days)
    (hdr : p1.dry_run = p2.dry_run)
    (hec : p1.exclude_current = p2.exclude_current)
    (hef : p1.exclude_fallback = p2.exclude_fallback)
    (hmk : p1.min_kernels ≤ p2.min_kernels) :
    ∀ v ∈ keepList st p1 now, v ∈ keepList st p2 now := by
  obtain ⟨kl1, kd1, dr1, ec1, ef1, mk1⟩ := p1
  obtain ⟨kl2, kd2, dr2, ec2, ef2, mk2⟩ := p2
  simp only at hkl hkd hdr hec hef hmk
  subst hkd hdr hec hef
  obtain ⟨a, rfl⟩ : ∃ a, kl2 = kl1 + a := ⟨kl2 - kl1, by omega⟩
  obtain ⟨b, rfl⟩ : ∃ b, mk2 = mk1 + b := ⟨mk2 - mk1, by omega⟩
  intro v hv
  have hlat : v ∈ keepList st ⟨kl1 + a, kd1, dr1, ec1, ef1, mk1⟩ now := by
    induction a with
    | zero => exact hv
    | succ n ih =>
      exact keepList_mono_latest_succ st now hnd (kl1 + n) kd1 dr1 ec1
        ef1 mk1 v (ih (by omega))
  exact keepList_mono_min_add st now (kl1 + a) kd1 dr1 ec1 ef1 mk1 b
    v hlat

/-- Witness for the amended C9 at a concrete catalog: raising
`keep_latest` from 0 to 2 and `min_kernels` from 1 to 2 preserves the
kept version. -/
theorem keep_monotone_latest_min_witness :
    (⟨["6.1.0", "6.0.5", "5.15.0"], "6.1.0", fun _ => none⟩ :
        KernelState).installed.Nodup ∧
    ((⟨0, 30, false, true, false, 1⟩ :
        KernelCleanupPolicy).keep_latest ≤
      (⟨2, 30, false, true, false, 2⟩ :
        KernelCleanupPolicy).keep_latest) ∧
    ("6.1.0" ∈ keepList
      ⟨["6.1.0", "6.0.5", "5.15.0"], "6.1.0", fun _ => none⟩
      ⟨0, 30, false, true, false, 1⟩ 0) ∧
    ("6.1.0" ∈ keepList
      ⟨["6.1.0", "6.0.5", "5.15.0"], "6.1.0", fun _ => none⟩
      ⟨2, 30, false, true, false, 2⟩ 0) :=
  ⟨by decide, by decide, by decide,
    keep_monotone_latest_min
      ⟨["6.1.0", "6.0.5", "5.15.0"], "6.1.0", fun _ => none⟩
      ⟨0, 30, false, true, false, 1⟩ ⟨2, 30, false, true, false, 2⟩ 0
      (by decide) (by decide) rfl rfl rfl rfl (by decide)
      "6.1.0" (by decide)⟩

/-! ### C4: the `min_kernels` floor -/

theorem topUp_length_or_all (infos : List KernelInfo) (m : Nat)
    (acc : List String) :
    m ≤ (topUp infos m acc).length ∨
      ∀ k ∈ infos, k.version ∈ topUp infos m acc := by
  induction infos generalizing acc with
  | nil =>
    right
    intro k hk
    cases hk
  | cons k ks ih =>
    simp only [topUp]
    by_cases hlen : acc.length ≥ m
    · left
      rwa [if_pos hlen]
    · rw [if_neg hlen]
      by_cases hk : k.version ∈ acc
      · rw [if_pos hk]
        rcases ih acc with h | h
        · exact Or.inl h
        · right
          intro j hj
          rcases List.mem_cons.1 hj with rfl | hj2
          · exact subset_topUp ks m acc hk
          · exact h j hj2
      · rw [if_neg hk]
        rcases ih (acc ++ [k.version]) with h | h
        · exact Or.inl h
        · right
          intro j hj
          rcases List.mem_cons.1 hj with rfl | hj2
          · exact subset_topUp ks m _
              (List.mem_append.2 (Or.inr (List.mem_singleton.2 rfl)))
          · exact h j hj2

theorem length_le_of_nodup_subset {l1 l2 : List String}
    (h1 : l1.Nodup) (hsub : l1 ⊆ l2) : l1.length ≤ l2.length := by
  calc l1.length = l1.toFinset.card :=
        (List.toFinset_card_of_nodup h1).symm
    _ ≤ l2.toFinset.card := Finset.card_le_card (fun a ha =>
        List.mem_toFinset.2 (hsub (List.mem_toFinset.1 ha)))
    _ ≤ l2.length := l2.toFinset_card_le

theorem mem_of_nodup_subset_length_ge {l1 l2 : List String}
    (h1 : l1.Nodup) (h2 : l2.Nodup) (hsub : l1 ⊆ l2)
    (hlen : l2.length ≤ l1.length) : ∀ v ∈ l2, v ∈ l1 := by
  intro v hv
  have hsubf : l1.toFinset ⊆ l2.toFinset := fun a ha =>
    List.mem_toFinset.2 (hsub (List.mem_toFinset.1 ha))
  have hcard : l2.toFinset.card ≤ l1.toFinset.card := by
    rw [List.toFinset_card_of_nodup h1, List.toFinset_card_of_nodup h2]
    exact hlen
  have heq := Finset.eq_of_subset_of_card_le hsubf hcard
  exact List.mem_toFinset.1 (heq ▸ List.mem_toFinset.2 hv)

/-- C4 counterexample.  With a single listed kernel whose running
kernel is a different (phantom) version and default exclusions, the
keep list holds only the phantom: zero catalog kernels are kept even
though `min(min_kernels, |catalog|) = 1`, and the catalog, although not
larger than `min_kernels`, is removed entirely. -/
theorem min_kernels_floor_counterexample :
    (keptRecords ⟨["5.15.0-76-generic"], "6.2.0-26-generic", fun _ => none⟩
        ⟨0, 0, false, true, true, 1⟩ 0).length = 0 ∧
    min (⟨0, 0, false, true, true, 1⟩ :
        KernelCleanupPolicy).min_kernels
      (⟨["5.15.0-76-generic"], "6.2.0-26-generic", fun _ => none⟩ :
        KernelState).installed.length = 1 ∧
    (⟨["5.15.0-76-generic"], "6.2.0-26-generic", fun _ => none⟩ :
        KernelState).installed.length ≤
      (⟨0, 0, false, true, true, 1⟩ :
        KernelCleanupPolicy).min_kernels ∧
    identify_kernels_to_remove
        ⟨["5.15.0-76-generic"], "6.2.0-26-generic", fun _ => none⟩
        ⟨0, 0, false, true, true, 1⟩ 0 ≠ [] := by
  refine ⟨?_, by decide, by decide, ?_⟩ <;> decide

/-- C4 as amended.  After the top-up, at least
`min(min_kernels, |catalog|)` catalog kernels are kept — and a catalog
no larger than `min_kernels` is kept whole with an empty remove list —
provided the keep list cannot be inflated by entries that are not
distinct catalog versions: the fallback, when `exclude_fallback` is
set, must be empty or a catalog version, and must differ from the
current version when `exclude_current` is also set (the unguarded
append at line 280 would otherwise duplicate it). -/
theorem min_kernels_floor (st : KernelState) (p : KernelCleanupPolicy)
    (now : Int) (hnd : st.installed.Nodup)
    (hfb : p.exclude_fallback = true → fallback_kernel st = "" ∨
      fallback_kernel st ∈ st.installed)
    (hdup : p.exclude_current = true → p.exclude_fallback = true →
      fallback_kernel st ≠ st.current) :
    min p.min_kernels st.installed.length ≤
      (keptRecords st p now).length ∧
    (st.installed.length ≤ p.min_kernels →
      (∀ v ∈ st.installed, v ∈ keepList st p now) ∧
        identify_kernels_to_remove st p now = []) := by
  have hkc_cases : keep_current st p = [] ∨
      (p.exclude_current = true ∧ keep_current st p = [st.current] ∧
        st.current ∈ st.installed) := by
    rw [keep_current]
    by_cases hec : p.exclude_current = true
    · rw [if_pos hec]
      rcases hfind : (catalogInfos st).find? (fun j => j.is_current)
        with _ | c
      · rw [hfind]
        exact Or.inl rfl
      · rw [hfind]
        obtain ⟨u, hu, rfl⟩ :=
          List.mem_map.1 (List.mem_of_find?_eq_some hfind)
        have hb : (get_kernel_info st u).is_current = true :=
          List.find?_some hfind
        have hu2 : u = st.current := by
          simpa [get_kernel_info] using hb
        right
        refine ⟨hec, ?_, hu2 ▸ hu⟩
        show [u] = [st.current]
        rw [hu2]
    · rw [if_neg hec]
      exact Or.inl rfl
  have hnodup2 : (keep_after_exclusions st p).Nodup := by
    rw [keep_after_exclusions]
    by_cases hg : (p.exclude_fallback && (fallback_kernel st != ""))
        = true
    · rw [if_pos hg]
      have hef : p.exclude_fallback = true :=
        (Bool.and_eq_true _ _ ▸ hg).1
      rcases hkc_cases with hk | ⟨hec, hk, _⟩
      · rw [hk]
        simp
      · rw [hk]
        have hne2 : ¬st.current = fallback_kernel st := fun h =>
          hdup hec hef h.symm
        simp [List.nodup_append, hne2]
    · rw [if_neg hg]
      rcases hkc_cases with hk | ⟨_, hk, _⟩ <;> rw [hk] <;> simp
  have hsub5 : ∀ v ∈ keepList st p now, v ∈ st.installed := by
    intro v hv
    rcases mem_keepList_cases st p now hv with h | ⟨hveq, hef, hne⟩
    · exact h
    · rcases hfb hef with h | h
      · exact absurd h hne
      · exact hveq ▸ h
  have hnodup5 : (keepList st p now).Nodup := by
    have h3 : (keep_after_latest st p).Nodup :=
      nodup_addMissing _ hnodup2
    have h4 : (keep_after_days st p now).Nodup := by
      rw [keep_after_days]
      split
      · exact nodup_daysFold _ _ h3
      · exact h3
    rw [keepList]
    split
    · exact nodup_topUp _ _ h4
    · exact h4
  have hpermlen : (keptRecords st p now).length =
      (keepList st p now).length := by
    have h1 : keptRecords st p now =
        (st.installed.filter (fun v => v ∈ keepList st p now)).map
          (get_kernel_info st) := by
      rw [keptRecords, catalogInfos, List.filter_map]
      rfl
    have hperm : (st.installed.filter
        (fun v => v ∈ keepList st p now)).Perm (keepList st p now) := by
      refine (List.perm_ext_iff_of_nodup (hnd.filter _) hnodup5).2 ?_
      intro a
      rw [List.mem_filter]
      constructor
      · rintro ⟨_, h⟩
        simpa using h
      · intro h
        exact ⟨hsub5 a h, by simpa using h⟩
    rw [h1, List.length_map, hperm.length_eq]
  have hmin_le : min p.min_kernels st.installed.length ≤
      (keptRecords st p now).length := by
    rw [hpermlen, keepList]
    split
    · rcases topUp_length_or_all (catalogInfos st) p.min_kernels
          (keep_after_days st p now) with h | h
      · exact le_trans (min_le_left _ _) h
      · have hsubi : st.installed ⊆ topUp (catalogInfos st)
            p.min_kernels (keep_after_days st p now) := by
          intro v hv
          exact h (get_kernel_info st v) (List.mem_map.2 ⟨v, hv, rfl⟩)
        exact le_trans (min_le_right _ _)
          (length_le_of_nodup_subset hnd hsubi)
    · rename_i hge
      exact le_trans (min_le_left _ _) (not_lt.1 hge)
  refine ⟨hmin_le, ?_⟩
  intro hle
  have hlen_ge : st.installed.length ≤ (keepList st p now).length := by
    have h := hmin_le
    rw [hpermlen, Nat.min_eq_right hle] at h
    exact h
  have hall : ∀ v ∈ st.installed, v ∈ keepList st p now :=
    mem_of_nodup_subset_length_ge hnodup5 hnd hsub5 hlen_ge
  refine ⟨hall, ?_⟩
  rw [identify_kernels_to_remove, List.filter_eq_nil_iff]
  intro k hk
  obtain ⟨u, hu, rfl⟩ := List.mem_map.1 hk
  simp only [decide_eq_true_eq, not_not]
  exact hall u hu

/-- Witness for the amended C4: two kernels, newest running, default
exclusions, floor of two — both kernels are kept and nothing is
removed. -/
theorem min_kernels_floor_witness :
    (⟨["6.1.0", "6.0.5"], "6.1.0", fun _ => none⟩ :
        KernelState).installed.Nodup ∧
    ((⟨2, 30, false, true, true, 2⟩ :
        KernelCleanupPolicy).exclude_fallback = true →
      fallback_kernel ⟨["6.1.0", "6.0.5"], "6.1.0", fun _ => none⟩ = ""
        ∨ fallback_kernel ⟨["6.1.0", "6.0.5"], "6.1.0", fun _ => none⟩ ∈
          (⟨["6.1.0", "6.0.5"], "6.1.0", fun _ => none⟩ :
            KernelState).installed) ∧
    ((⟨2, 30, false, true, true, 2⟩ :
        KernelCleanupPolicy).exclude_current = true →
      (⟨2, 30, false, true, true, 2⟩ :
        KernelCleanupPolicy).exclude_fallback = true →
      fallback_kernel ⟨["6.1.0", "6.0.5"], "6.1.0", fun _ => none⟩ ≠
        (⟨["6.1.0", "6.0.5"], "6.1.0", fun _ => none⟩ :
          KernelState).current) ∧
    (min (⟨2, 30, false, true, true, 2⟩ :
          KernelCleanupPolicy).min_kernels
        (⟨["6.1.0", "6.0.5"], "6.1.0", fun _ => none⟩ :
          KernelState).installed.length ≤
      (keptRecords ⟨["6.1.0", "6.0.5"], "6.1.0", fun _ => none⟩
        ⟨2, 30, false, true, true, 2⟩ 0).length ∧
    ((⟨["6.1.0", "6.0.5"], "6.1.0", fun _ => none⟩ :
          KernelState).installed.length ≤
        (⟨2, 30, false, true, true, 2⟩ :
          KernelCleanupPolicy).min_kernels →
      (∀ v ∈ (⟨["6.1.0", "6.0.5"], "6.1.0", fun _ => none⟩ :
          KernelState).installed,
        v ∈ keepList ⟨["6.1.0", "6.0.5"], "6.1.0", fun _ => none⟩
          ⟨2, 30, false, true, true, 2⟩ 0) ∧
        identify_kernels_to_remove
          ⟨["6.1.0", "6.0.5"], "6.1.0", fun _ => none⟩
          ⟨2, 30, false, true, true, 2⟩ 0 = [])) :=
  ⟨by decide, fun _ => Or.inr (by decide), fun _ _ => by decide,
    min_kernels_floor _ _ 0 (by decide)
      (fun _ => Or.inr (by decide)) (fun _ _ => by decide)⟩

/-! ### Order properties of the Python list comparison -/

theorem pyListLt_irrefl (l : List Nat) : pyListLt l l = false := by
  induction l with
  | nil => rfl
  | cons a as ih =>
    simp only [pyListLt, if_neg (lt_irrefl a)]
    exact ih

theorem pyListLt_asymm {a b : List Nat} (h : pyListLt a b = true) :
    pyListLt b a = false := by
  induction a generalizing b with
  | nil =>
    cases b with
    | nil => cases h
    | cons y ys => rfl
  | cons x xs ih =>
    cases b with
    | nil => cases h
    | cons y ys =>
      simp only [pyListLt] at h ⊢
      by_cases hxy : x < y
      · rw [if_neg (lt_asymm hxy), if_pos hxy]
      · rw [if_neg hxy] at h
        by_cases hyx : y < x
        · rw [if_pos hyx] at h
          cases h
        · rw [if_neg hyx] at h
          rw [if_neg hyx, if_neg hxy]
          exact ih h

theorem pyListLt_trans {a b c : List Nat} (h1 : pyListLt a b = true)
    (h2 : pyListLt b c = true) : pyListLt a c = true := by
  induction a generalizing b c with
  | nil =>
    cases c with
    | nil =>
      cases b with
      | nil => cases h1
      | cons y ys => cases h2
    | cons z zs => rfl
  | cons x xs ih =>
    cases b with
    | nil => cases h1
    | cons y ys =>
      cases c with
      | nil => cases h2
      | cons z zs =>
        simp only [pyListLt] at h1 h2 ⊢
        by_cases hxy : x < y
        · by_cases hyz : y < z
          · rw [if_pos (lt_trans hxy hyz)]
          · rw [if_neg hyz] at h2
            by_cases hzy : z < y
            · rw [if_pos hzy] at h2
              cases h2
            · have hyzeq : y = z :=
                le_antisymm (not_lt.1 hzy) (not_lt.1 hyz)
              rw [if_pos (hyzeq ▸ hxy)]
        · rw [if_neg hxy] at h1
          by_cases hyx : y < x
          · rw [if_pos hyx] at h1
            cases h1
          · rw [if_neg hyx] at h1
            have hxyeq : x = y :=
              le_antisymm (not_lt.1 hyx) (not_lt.1 hxy)
            subst hxyeq
            by_cases hxz : x < z
            · rw [if_pos hxz]
            · rw [if_neg hxz] at h2 ⊢
              by_cases hzx : z < x
              · rw [if_pos hzx] at h2
                cases h2
              · rw [if_neg hzx] at h2 ⊢
                exact ih h1 h2

/-! ### The insertion model of the stable descending sort -/

theorem mem_insertDesc {z x : String} (l : List String) :
    z ∈ insertDesc x l ↔ z = x ∨ z ∈ l := by
  induction l with
  | nil => simp [insertDesc]
  | cons y ys ih =>
    simp only [insertDesc]
    split
    · simp [List.mem_cons]
    · rw [List.mem_cons, ih, List.mem_cons]
      tauto

theorem perm_insertDesc (x : String) (l : List String) :
    (insertDesc x l).Perm (x :: l) := by
  induction l with
  | nil => exact List.Perm.refl _
  | cons y ys ih =>
    simp only [insertDesc]
    split
    · exact List.Perm.refl _
    · exact (ih.cons y).trans (List.Perm.swap x y ys)

theorem pairwise_insertDesc {l : List String} (x : String)
    (h : l.Pairwise keyGe) : (insertDesc x l).Pairwise keyGe := by
  induction l with
  | nil => simp [insertDesc, List.pairwise_cons]
  | cons y ys ih =>
    rcases List.pairwise_cons.1 h with ⟨hy, hys⟩
    simp only [insertDesc]
    split
    · rename_i hlt
      refine List.pairwise_cons.2 ⟨?_, h⟩
      intro z hz
      rcases List.mem_cons.1 hz with rfl | hz2
      · exact pyListLt_asymm hlt
      · have hyz := hy z hz2
        rw [keyGe] at hyz ⊢
        cases hxz : pyListLt (numericKey x) (numericKey z) with
        | false => rfl
        | true =>
          have htr := pyListLt_trans hlt hxz
          rw [hyz] at htr
          cases htr
    · rename_i hnlt
      refine List.pairwise_cons.2 ⟨?_, ih hys⟩
      intro z hz
      rcases (mem_insertDesc ys).1 hz with rfl | hz2
      · rw [keyGe]
        simpa using hnlt
      · exact hy z hz2

theorem filter_insertDesc (x : String) (key : List Nat)
    {l : List String} (h : l.Pairwise keyGe) :
    (insertDesc x l).filter (fun v => numericKey v = key) =
      if numericKey x = key then
        l.filter (fun v => numericKey v = key) ++ [x]
      else l.filter (fun v => numericKey v = key) := by
  induction l with
  | nil =>
    by_cases hxk : numericKey x = key <;>
      simp [insertDesc, List.filter, hxk]
  | cons y ys ih =>
    rcases List.pairwise_cons.1 h with ⟨hy, hys⟩
    simp only [insertDesc]
    split
    · rename_i hlt
      by_cases hxk : numericKey x = key
      · have hfil : (y :: ys).filter (fun v => numericKey v = key)
            = [] := by
          rw [List.filter_eq_nil_iff]
          intro z hz
          simp only [decide_eq_true_eq]
          intro hzk
          have hee : numericKey z = numericKey x := by rw [hzk, hxk]
          rcases List.mem_cons.1 hz with rfl | hz2
          · rw [hee] at hlt
            rw [pyListLt_irrefl] at hlt
            cases hlt
          · have hyz := hy z hz2
            rw [keyGe, hee] at hyz
            rw [hyz] at hlt
            cases hlt
        rw [if_pos hxk]
        rw [List.filter_cons_of_pos (by simp [hxk]), hfil]
        rfl
      · rw [if_neg hxk]
        rw [List.filter_cons_of_neg (by simp [hxk])]
    · rename_i hnlt
      have hstep : (y :: insertDesc x ys).filter
          (fun v => numericKey v = key) =
        if numericKey y = key then
          y :: (insertDesc x ys).filter (fun v => numericKey v = key)
        else (insertDesc x ys).filter (fun v => numericKey v = key) := by
        by_cases hyk : numericKey y = key
        · rw [if_pos hyk, List.filter_cons_of_pos (by simp [hyk])]
        · rw [if_neg hyk, List.filter_cons_of_neg (by simp [hyk])]
      rw [hstep, ih hys]
      by_cases hyk : numericKey y = key <;>
        by_cases hxk : numericKey x = key <;>
          simp [hyk, hxk, List.filter_cons]

theorem foldl_insertDesc_pairwise (l : List String) :
    ∀ acc : List String, acc.Pairwise keyGe →
      (l.foldl (fun a v => insertDesc v a) acc).Pairwise keyGe := by
  induction l with
  | nil => exact fun _ h => h
  | cons v vs ih =>
    intro acc h
    exact ih _ (pairwise_insertDesc v h)

theorem foldl_insertDesc_perm (l : List String) :
    ∀ acc : List String,
      (l.foldl (fun a v => insertDesc v a) acc).Perm (acc ++ l) := by
  induction l with
  | nil => intro acc; simp
  | cons v vs ih =>
    intro acc
    refine ((ih _).trans ?_)
    refine (List.Perm.append_right vs (perm_insertDesc v acc)).trans ?_
    exact List.perm_middle.symm

theorem foldl_insertDesc_filter (key : List Nat) (l : List String) :
    ∀ acc : List String, acc.Pairwise keyGe →
      (l.foldl (fun a v => insertDesc v a) acc).filter
          (fun v => numericKey v = key) =
        acc.filter (fun v => numericKey v = key) ++
          l.filter (fun v => numericKey v = key) := by
  induction l with
  | nil =>
    intro acc _
    simp
  | cons v vs ih =>
    intro acc h
    rw [List.foldl_cons, ih _ (pairwise_insertDesc v h),
      filter_insertDesc v key h]
    by_cases hvk : numericKey v = key <;>
      simp [hvk, List.filter_cons]

/-! ### C7: the ordering contract of `list_installed_kernels` -/

/-- C7.  `list_installed_kernels` orders the deduplicated kernel list
newest-first by release-precedence key: in the output no kernel is
followed by one with a strictly greater numeric key (`Pairwise keyGe`,
component-wise comparison of the embedded numeric components, not
lexical string order); the output is a permutation of the deduplicated
input; and for every key value the subsequence of kernels with that key
is exactly the one of the deduplicated input — equal-key ties keep
their original listing order (stable sort). -/
theorem list_installed_kernels_ordering (raw : List String) :
    (list_installed_kernels raw).Pairwise keyGe ∧
    (list_installed_kernels raw).Perm (addMissing raw []) ∧
    ∀ key : List Nat,
      (list_installed_kernels raw).filter
          (fun v => numericKey v = key) =
        (addMissing raw []).filter (fun v => numericKey v = key) := by
  refine ⟨?_, ?_, ?_⟩
  · exact foldl_insertDesc_pairwise _ _ List.Pairwise.nil
  · have hperm := foldl_insertDesc_perm (addMissing raw []) []
    simpa [list_installed_kernels, sortDesc] using hperm
  · intro key
    rw [list_installed_kernels, sortDesc,
      foldl_insertDesc_filter key _ _ List.Pairwise.nil]
    simp

end VKM
